import Mathlib

/-!
Shallow embedding of the matching and scoring engine of
`src/app.py` (threat-engineer résumé screener).

Conventions of the embedding:
* Python strings are Lean `String`s (ASCII is the relevant alphabet; the
  character-level operations below mirror Python's behaviour on ASCII).
* Python `float` arithmetic is modelled with `ℚ` (the score computations
  are a single division and a multiplication by 100).
* Python dicts that preserve insertion order are association lists
  `List (String × ·)` in insertion order.
* The spaCy-derived requirement candidates (noun chunks and entities) are
  an external library's output; they enter `extract_and_categorize_requirements`
  as an opaque parameter `extra : String → List String` giving the
  chunk/entity strings that the nested loops add for each category.
-/

/-- Python `\s` on the ASCII range: the whitespace characters recognised by
`re.sub(r'\s+', ' ', ...)` and `str.strip()` in `clean_text`. -/
def isPyWs (c : Char) : Bool :=
  c == ' ' || c == '\t' || c == '\n' || c == '\x0d' || c == '\x0c' || c == '\x0b'

/-- Characters kept by `re.sub(r'[^a-z0-9\s.\-+#]', '', text)` in
`clean_text` (the text has already been lowercased at that point). -/
def keptChar (c : Char) : Bool :=
  ('a' ≤ c && c ≤ 'z') || ('0' ≤ c && c ≤ '9') || isPyWs c ||
    c == '.' || c == '-' || c == '+' || c == '#'

/-- One pass of `re.sub(r'\s+', ' ', text)`: every maximal run of whitespace
characters becomes a single space.  The boolean records whether the previous
character was whitespace (so the run only emits one space, at its start). -/
def collapseWs : List Char → Bool → List Char
  | [], _ => []
  | c :: rest, prev =>
    if isPyWs c then
      if prev then collapseWs rest true
      else ' ' :: collapseWs rest true
    else c :: collapseWs rest false

/-- `str.strip()` from the right: drop trailing whitespace. -/
def dropTrail (l : List Char) : List Char :=
  (l.reverse.dropWhile isPyWs).reverse

/-- `str.strip()`: drop leading and trailing whitespace. -/
def stripWs (l : List Char) : List Char :=
  dropTrail (l.dropWhile isPyWs)

/-- `clean_text` of `src/app.py` on the character list of a string:
lowercase, delete the characters outside `[a-z0-9\s.\-+#]`, collapse
whitespace runs to single spaces, and strip.  (On the empty string the
Python guard `if not text: return ""` returns `""`, which coincides with
running the pipeline, so no separate branch is needed.) -/
def cleanList (l : List Char) : List Char :=
  stripWs (collapseWs ((l.map Char.toLower).filter keptChar) false)

/-- `clean_text` of `src/app.py` on strings. -/
def clean_text (s : String) : String :=
  ⟨cleanList s.data⟩

/-- Does `needle` occur at the very start of `hay`? -/
def seqAt : List Char → List Char → Bool
  | [], _ => true
  | _ :: _, [] => false
  | a :: as, b :: bs => a == b && seqAt as bs

/-- Python's substring test `needle in hay` (contiguous occurrence anywhere,
the empty needle always occurs). -/
def containsSeq (n : List Char) : List Char → Bool
  | [] => n.isEmpty
  | c :: t => seqAt n (c :: t) || containsSeq n t

/-- The presence test of line 177 of `src/app.py`:
`req.lower() in cleaned_resume_text`.  The second argument is the already
cleaned document text. -/
def termPresent (req : String) (cleanedDoc : String) : Bool :=
  containsSeq (req.data.map Char.toLower) cleanedDoc.data

/-- Number of requirement terms of one category found in the cleaned résumé
(`matched_in_category` of `src/app.py`). -/
def matchedCount (reqs : List String) (cleanedResume : String) : Nat :=
  reqs.countP (fun r => termPresent r cleanedResume)

/-- Line 185 of `src/app.py`:
`(matched_in_category / total_in_category) * 100 if total_in_category > 0 else 0`. -/
def categoryScore (reqs : List String) (cleanedResume : String) : ℚ :=
  if 0 < reqs.length then
    ((matchedCount reqs cleanedResume : ℚ) / (reqs.length : ℚ)) * 100
  else 0

/-- `total_possible_requirements`: the sum of the category sizes. -/
def totalPossible (jr : List (String × List String)) : Nat :=
  (jr.map (fun p => p.2.length)).sum

/-- `total_matched_requirements`: the sum of the per-category match counts. -/
def totalMatched (jr : List (String × List String)) (cleanedResume : String) : Nat :=
  (jr.map (fun p => matchedCount p.2 cleanedResume)).sum

/-- Line 188 of `src/app.py`:
`(total_matched / total_possible) * 100 if total_possible > 0 else 0`. -/
def overallScore (jr : List (String × List String)) (cleanedResume : String) : ℚ :=
  if 0 < totalPossible jr then
    ((totalMatched jr cleanedResume : ℚ) / (totalPossible jr : ℚ)) * 100
  else 0

/-- Return value of `analyze_and_score_resume`:
`(category_scores, overall_score, strengths, gaps)`. -/
structure AnalysisResult where
  category_scores : List (String × ℚ)
  overall_score : ℚ
  strengths : List (String × List String)
  gaps : List (String × List String)
  deriving Repr, DecidableEq

/-- `analyze_and_score_resume` of `src/app.py` (lines 152–190).  The guard
`if not resume_text or not jd_requirements: return {}, 0, {}, {}` fires on
the empty string and the empty dict; otherwise every category's terms are
split by the presence test into strengths and gaps, in order, and the scores
are the guarded ratios above. -/
def analyze_and_score_resume (resume_text : String)
    (jd_requirements : List (String × List String)) : AnalysisResult :=
  if resume_text = "" ∨ jd_requirements = [] then ⟨[], 0, [], []⟩
  else
    let cleaned := clean_text resume_text
    { category_scores := jd_requirements.map (fun p => (p.1, categoryScore p.2 cleaned))
      overall_score := overallScore jd_requirements cleaned
      strengths := jd_requirements.map
        (fun p => (p.1, p.2.filter (fun r => termPresent r cleaned)))
      gaps := jd_requirements.map
        (fun p => (p.1, p.2.filter (fun r => !termPresent r cleaned))) }

/-- Python `\d` on ASCII. -/
def isDigitCh (c : Char) : Bool := '0' ≤ c && c ≤ '9'

/-- Numeric value of a run of decimal digits (what `int(y)` returns for a
captured group `y` of `(\d+)`). -/
def digitsVal (ds : List Char) : Nat :=
  ds.foldl (fun a c => 10 * a + (c.toNat - 48)) 0

/-- The optional `s` of `years?`. -/
def afterYearS (r : List Char) : List Char :=
  match r with
  | 's' :: rest => rest
  | _ => r

/-- Recognise the literal `experience` and return the remainder. -/
def matchExperience (r : List Char) : Option (List Char) :=
  if seqAt "experience".data r then some (r.drop 10) else none

/-- After the digits and the whitespace, recognise `years?\s*experience`. -/
def matchYearTail (r1 : List Char) : Option (List Char) :=
  if seqAt "year".data r1 then
    matchExperience ((afterYearS (r1.drop 4)).dropWhile isPyWs)
  else none

/-- One attempted match of the regex `(\d+)\s*years?\s*experience` anchored at
the head of `l`: on success, the value of the captured digit group and the
text after the match.  Greedy `\d+` needs no backtracking here because a
digit can neither start `year` nor be whitespace. -/
def matchYearsAt (l : List Char) : Option (Nat × List Char) :=
  if (l.takeWhile isDigitCh).isEmpty then none
  else
    match matchYearTail ((l.dropWhile isDigitCh).dropWhile isPyWs) with
    | some rem => some (digitsVal (l.takeWhile isDigitCh), rem)
    | none => none

theorem length_dropWhile_le (p : Char → Bool) (l : List Char) :
    (l.dropWhile p).length ≤ l.length :=
  (List.dropWhile_sublist p (l := l)).length_le

theorem seqAt_length {n h : List Char} (hs : seqAt n h = true) : n.length ≤ h.length := by
  induction n generalizing h with
  | nil => simp
  | cons a as ih =>
    cases h with
    | nil => simp [seqAt] at hs
    | cons b bs =>
      simp only [seqAt, Bool.and_eq_true] at hs
      have := ih hs.2
      simp only [List.length_cons]
      omega

theorem matchExperience_length {r r5 : List Char} (h : matchExperience r = some r5) :
    r5.length < r.length := by
  unfold matchExperience at h
  split at h
  · next hs =>
    cases h
    have hlen := seqAt_length hs
    simp only [List.length_drop]
    simp at hlen
    omega
  · cases h

theorem afterYearS_length (r : List Char) : (afterYearS r).length ≤ r.length := by
  unfold afterYearS
  split <;> simp

theorem matchYearTail_length {r1 rem : List Char} (h : matchYearTail r1 = some rem) :
    rem.length < r1.length := by
  unfold matchYearTail at h
  split at h
  · next hs =>
    have h1 := matchExperience_length h
    have h2 := length_dropWhile_le isPyWs (afterYearS (r1.drop 4))
    have h3 := afterYearS_length (r1.drop 4)
    have hlen := seqAt_length hs
    simp only [List.length_drop] at h3 ⊢
    simp at hlen
    omega
  · cases h

theorem matchYearsAt_length {l : List Char} {n : Nat} {rem : List Char}
    (h : matchYearsAt l = some (n, rem)) : rem.length < l.length := by
  unfold matchYearsAt at h
  split at h
  · cases h
  · next hne =>
    split at h
    · next rem' htail =>
      cases h
      have h1 := matchYearTail_length htail
      have h2 := length_dropWhile_le isPyWs (l.dropWhile isDigitCh)
      -- the digit run is nonempty, so `dropWhile isDigitCh` shortens `l`
      have h3 : (l.dropWhile isDigitCh).length < l.length := by
        cases l with
        | nil => simp [List.takeWhile] at hne
        | cons c t =>
          by_cases hc : isDigitCh c = true
          · have := length_dropWhile_le isDigitCh t
            simp [List.dropWhile, hc]
            omega
          · simp [List.takeWhile, hc] at hne
      omega
    · cases h

/-- The left-to-right scan of `re.findall`, with explicit fuel so that the
recursion is structural (each step consumes at least one character, so fuel
equal to the length of the text always suffices —
`findYearsFuel_fuel_indep` below makes that formal). -/
def findYearsFuel : Nat → List Char → List Nat
  | 0, _ => []
  | _ + 1, [] => []
  | fuel + 1, c :: rest =>
    match matchYearsAt (c :: rest) with
    | some (n, rem) => n :: findYearsFuel fuel rem
    | none => findYearsFuel fuel rest

/-- `re.findall(r'(\d+)\s*years?\s*experience', text)` with the captured
groups converted to numbers: scan left to right, report non-overlapping
matches, and continue after the end of each match. -/
def findYears (l : List Char) : List Nat :=
  findYearsFuel l.length l

/-- Any amount of fuel at least the length of the text gives the same scan,
so `findYears` is the (unique) fixpoint of the fuel-free recursion. -/
theorem findYearsFuel_fuel_indep {a b : Nat} {l : List Char}
    (h : l.length ≤ a) (h' : l.length ≤ b) :
    findYearsFuel a l = findYearsFuel b l := by
  induction a generalizing b l with
  | zero =>
    have : l = [] := List.length_eq_zero.mp (Nat.le_zero.mp h)
    subst this
    cases b <;> rfl
  | succ f ih =>
    cases l with
    | nil => cases b <;> rfl
    | cons c rest =>
      cases b with
      | zero => simp at h'
      | succ g =>
        simp only [findYearsFuel]
        cases hm : matchYearsAt (c :: rest) with
        | none =>
          simp only [List.length_cons] at h h'
          show findYearsFuel f rest = findYearsFuel g rest
          exact ih (by omega) (by omega)
        | some nr =>
          obtain ⟨n, rem⟩ := nr
          have hlen := matchYearsAt_length hm
          simp only [List.length_cons] at h h' hlen
          show n :: findYearsFuel f rem = n :: findYearsFuel g rem
          rw [ih (b := g) (l := rem) (by omega) (by omega)]

/-- `max(...)` of a nonempty list of naturals (Python's `max`). -/
def maxNat (l : List Nat) : Nat := l.foldl max 0

/-- Python string comparison (lexicographic by code point) on char lists. -/
def strDataLt : List Char → List Char → Bool
  | [], [] => false
  | [], _ :: _ => true
  | _ :: _, [] => false
  | a :: as, b :: bs =>
    if a.toNat < b.toNat then true
    else if b.toNat < a.toNat then false
    else strDataLt as bs

/-- `a <= b` in Python's string order. -/
def strLeB (a b : String) : Bool := !strDataLt b.data a.data

/-- Insert into an ascending list (one step of insertion sort). -/
def insSorted (x : String) : List String → List String
  | [] => [x]
  | y :: ys => if strLeB x y then x :: y :: ys else y :: insSorted x ys

/-- `sorted(...)` for lists of strings: ascending by Python's string order.
Applied below only to duplicate-free lists, where any correct comparison
sort yields the same (strictly ascending) result Python's `sorted` does. -/
def sortStr (l : List String) : List String := l.foldr insSorted []

/-- The `categories` dict of `extract_and_categorize_requirements`
(lines 81–96 of `src/app.py`), in insertion order. -/
def categoriesList : List (String × List String) := [
  ("Years of Experience",
    ["years experience", "year experience", "yrs experience", "yrs exp", "year+"]),
  ("Core Security Tools",
    ["SkyHigh", "Trellix", "McAfee Web Gateway", "FireEye", "Palo Alto",
     "Trend Micro", "Zscaler"]),
  ("SIEM / Threat Detection",
    ["SIEM", "QRadar", "Sentinel", "Splunk", "EDR", "threat detection",
     "threat hunting", "alerting", "monitoring"]),
  ("Network / Infra Security",
    ["DMZ", "proxy", "routing", "SSL/TLS", "VPN", "firewall", "IDS/IPS",
     "network security", "infrastructure security", "cisco"]),
  ("Vulnerability / Risk Mgmt",
    ["vulnerability assessment", "risk assessment", "risk management",
     "vulnerability management", "qualys", "nessus", "rapid7", "gRC"]),
  ("Cloud Security",
    ["cloud security", "aws security", "azure security", "gcp security", "CASB"]),
  ("Certifications",
    ["CISSP", "CCNA", "CEH", "OSCP", "Security+", "Fortinet NSE",
     "Microsoft Certified", "ISO 27001 Auditor"]),
  ("Programming / Scripting",
    ["Python", "Bash", "Shell", "PowerShell", "scripting", "automation",
     "API", "KQL", "Regex"]),
  ("Audit / Compliance",
    ["audit", "compliance", "ISO 27001", "NIST", "SOC 2", "frameworks",
     "regulatory"]),
  ("Incident Response / Forensics",
    ["incident response", "forensics", "malware analysis", "CSIRT", "playbooks"]),
  ("Communication / Soft Skills",
    ["communication", "teamwork", "collaboration", "stakeholders", "written",
     "verbal", "leadership", "mentoring"]),
  ("Architecture / Design",
    ["architecture", "design", "planning", "strategy", "SME", "solution"]),
  ("Deployment / Operations",
    ["deployment", "implementation", "operate", "manage", "configure",
     "maintain", "lifecycle", "refresh", "troubleshoot"])]

/-- The per-category term set before the years-of-experience special case:
the category's keywords whose lowercase form occurs in the cleaned JD text
(line 109), together with the opaque chunk/entity contributions `extra`,
as a deduplicated sorted list (`sorted(list(found_in_category))`,
line 130; `found_in_category` is a Python set). -/
def foundTerms (keywords : List String) (extra : List String)
    (cleanedJd : String) : List String :=
  sortStr (((keywords.filter
    (fun k => containsSeq (k.data.map Char.toLower) cleanedJd.data)) ++ extra).dedup)

/-- Lines 99–130 of `src/app.py`: one `(category, sorted(found_in_category))`
pair per category of the taxonomy, in insertion order. -/
def extractBase (extra : String → List String) (cleaned : String) :
    List (String × List String) :=
  categoriesList.map (fun p => (p.1, foundTerms p.2 (extra p.1) cleaned))

/-- Lines 132–141 of `src/app.py`: the years-of-experience special handling.
If the regex finds explicit `<n> years experience` phrases, prepend
`"<max>+ years experience"`; otherwise, if the cleaned JD mentions `senior`
or `lead` and the category is still empty, append
`"5+ years experience (implied)"`. -/
def extractWithExp (extra : String → List String) (cleaned : String) :
    List (String × List String) :=
  if findYears cleaned.data ≠ [] then
    (extractBase extra cleaned).map (fun p =>
      if p.1 = "Years of Experience" then
        (p.1, (toString (maxNat (findYears cleaned.data)) ++ "+ years experience") :: p.2)
      else p)
  else if containsSeq "senior".data cleaned.data ||
          containsSeq "lead".data cleaned.data then
    (extractBase extra cleaned).map (fun p =>
      if p.1 = "Years of Experience" && p.2.isEmpty then
        (p.1, ["5+ years experience (implied)"])
      else p)
  else extractBase extra cleaned

/-- `extract_and_categorize_requirements` of `src/app.py` (lines 69–147),
with the spaCy noun-chunk/entity contributions abstracted as
`extra : String → List String` (per category name).  The guard of line 74
returns the empty map for empty JD text, and line 145 removes the
categories with no identified requirements. -/
def extract_and_categorize_requirements (extra : String → List String)
    (jd_text : String) : List (String × List String) :=
  if jd_text = "" then []
  else (extractWithExp extra (clean_text jd_text)).filter (fun p => !p.2.isEmpty)

/-- The screening decision of line 268 of `src/app.py`:
`overall_score >= screening_threshold`. -/
def screenedIn (overall_score screening_threshold : ℚ) : Bool :=
  overall_score ≥ screening_threshold

/-! ### Basic facts about the evaluation -/

theorem analyze_eq {resume : String} {jr : List (String × List String)}
    (hr : resume ≠ "") (hj : jr ≠ []) :
    analyze_and_score_resume resume jr =
    { category_scores := jr.map (fun p => (p.1, categoryScore p.2 (clean_text resume)))
      overall_score := overallScore jr (clean_text resume)
      strengths := jr.map
        (fun p => (p.1, p.2.filter (fun r => termPresent r (clean_text resume))))
      gaps := jr.map
        (fun p => (p.1, p.2.filter (fun r => !termPresent r (clean_text resume)))) } := by
  unfold analyze_and_score_resume
  rw [if_neg (by simp [hr, hj])]

theorem matchedCount_le_length (reqs : List String) (c : String) :
    matchedCount reqs c ≤ reqs.length :=
  List.countP_le_length _

theorem categoryScore_nonneg (reqs : List String) (c : String) :
    0 ≤ categoryScore reqs c := by
  unfold categoryScore
  split
  · positivity
  · exact le_refl 0

theorem categoryScore_le_100 (reqs : List String) (c : String) :
    categoryScore reqs c ≤ 100 := by
  unfold categoryScore
  split
  · next hpos =>
    have hle : (matchedCount reqs c : ℚ) / (reqs.length : ℚ) ≤ 1 := by
      rw [div_le_one (by exact_mod_cast hpos)]
      exact_mod_cast matchedCount_le_length reqs c
    calc (matchedCount reqs c : ℚ) / (reqs.length : ℚ) * 100 ≤ 1 * 100 :=
          mul_le_mul_of_nonneg_right hle (by norm_num)
      _ = 100 := by norm_num
  · norm_num

theorem totalMatched_le_totalPossible (jr : List (String × List String)) (c : String) :
    totalMatched jr c ≤ totalPossible jr := by
  unfold totalMatched totalPossible
  exact List.sum_le_sum (fun p _ => matchedCount_le_length p.2 c)

theorem overallScore_nonneg (jr : List (String × List String)) (c : String) :
    0 ≤ overallScore jr c := by
  unfold overallScore
  split
  · positivity
  · exact le_refl 0

theorem overallScore_le_100 (jr : List (String × List String)) (c : String) :
    overallScore jr c ≤ 100 := by
  unfold overallScore
  split
  · next hpos =>
    have hle : (totalMatched jr c : ℚ) / (totalPossible jr : ℚ) ≤ 1 := by
      rw [div_le_one (by exact_mod_cast hpos)]
      exact_mod_cast totalMatched_le_totalPossible jr c
    calc (totalMatched jr c : ℚ) / (totalPossible jr : ℚ) * 100 ≤ 1 * 100 :=
          mul_le_mul_of_nonneg_right hle (by norm_num)
      _ = 100 := by norm_num
  · norm_num

/-! ### Claims -/

/-- C2: for every nonempty résumé text and nonempty requirements map, the
strengths and gaps computed by `analyze_and_score_resume` for each category
split that category's requirement list by the presence test: the two parts
together are a permutation of the category's terms (each term lands in
exactly one of them, tested once), and no term is in both. -/
theorem C2_strengths_gaps_partition (resume : String)
    (jr : List (String × List String)) (hr : resume ≠ "") (hj : jr ≠ [])
    (c : String) (ts : List String) (hmem : (c, ts) ∈ jr) :
    ((c, ts.filter (fun r => termPresent r (clean_text resume))) ∈
        (analyze_and_score_resume resume jr).strengths ∧
      (c, ts.filter (fun r => !termPresent r (clean_text resume))) ∈
        (analyze_and_score_resume resume jr).gaps) ∧
    List.Perm (ts.filter (fun r => termPresent r (clean_text resume)) ++
        ts.filter (fun r => !termPresent r (clean_text resume))) ts ∧
    ∀ x, x ∈ ts.filter (fun r => termPresent r (clean_text resume)) →
      x ∉ ts.filter (fun r => !termPresent r (clean_text resume)) := by
  rw [analyze_eq hr hj]
  refine ⟨⟨?_, ?_⟩, List.filter_append_perm _ ts, ?_⟩
  · exact List.mem_map.mpr ⟨(c, ts), hmem, rfl⟩
  · exact List.mem_map.mpr ⟨(c, ts), hmem, rfl⟩
  · intro x hx hx'
    have h1 := (List.mem_filter.mp hx).2
    have h2 := (List.mem_filter.mp hx').2
    rw [h1] at h2
    simp at h2

theorem C2_strengths_gaps_partition_witness :
    (("B", ["y"]) ∈
        (analyze_and_score_resume "I know python"
          [("A", ["x"]), ("B", ["y", "z"])]).strengths ∧
      ("B", ["z"]) ∈
        (analyze_and_score_resume "I know python"
          [("A", ["x"]), ("B", ["y", "z"])]).gaps) ∧
    List.Perm (["y"] ++ ["z"]) ["y", "z"] ∧
    ∀ x, x ∈ ["y"] → x ∉ ["z"] := by
  have h := C2_strengths_gaps_partition "I know python"
    [("A", ["x"]), ("B", ["y", "z"])] (by decide) (by decide)
    "B" ["y", "z"] (by decide)
  have e1 : List.filter (fun r => termPresent r (clean_text "I know python"))
      ["y", "z"] = ["y"] := by decide
  have e2 : List.filter (fun r => !termPresent r (clean_text "I know python"))
      ["y", "z"] = ["z"] := by decide
  rw [e1, e2] at h
  exact h

/-- C3: whenever the requirements map has at least one term in total
(`max_score > 0`), the overall score of `analyze_and_score_resume` lies in
[0, 100] and so does every per-category score it reports. -/
theorem C3_scores_bounded (resume : String) (jr : List (String × List String))
    (hpos : 0 < totalPossible jr) :
    (0 ≤ (analyze_and_score_resume resume jr).overall_score ∧
      (analyze_and_score_resume resume jr).overall_score ≤ 100) ∧
    ∀ p ∈ (analyze_and_score_resume resume jr).category_scores,
      0 ≤ p.2 ∧ p.2 ≤ 100 := by
  unfold analyze_and_score_resume
  split
  · norm_num
  · refine ⟨⟨overallScore_nonneg _ _, overallScore_le_100 _ _⟩, ?_⟩
    intro p hp
    obtain ⟨q, _, rfl⟩ := List.mem_map.mp hp
    exact ⟨categoryScore_nonneg _ _, categoryScore_le_100 _ _⟩

theorem C3_scores_bounded_witness :
    (0 ≤ (analyze_and_score_resume "x" [("A", ["x"]), ("B", ["y", "z"])]).overall_score ∧
      (analyze_and_score_resume "x" [("A", ["x"]), ("B", ["y", "z"])]).overall_score ≤ 100) ∧
    ∀ p ∈ (analyze_and_score_resume "x" [("A", ["x"]), ("B", ["y", "z"])]).category_scores,
      0 ≤ p.2 ∧ p.2 ≤ 100 :=
  C3_scores_bounded "x" [("A", ["x"]), ("B", ["y", "z"])] (by decide)

/-- C4: on degenerate inputs — empty requirements map, empty résumé text, or
zero requirement terms in total — `analyze_and_score_resume` reports an
overall score of 0.  (The embedding is a total function: the guarded
conditionals of lines 157, 185 and 188 mean no division by zero can occur.) -/
theorem C4_degenerate_zero (resume : String) (jr : List (String × List String))
    (hdeg : jr = [] ∨ resume = "" ∨ totalPossible jr = 0) :
    (analyze_and_score_resume resume jr).overall_score = 0 := by
  unfold analyze_and_score_resume
  split
  · rfl
  · next hguard =>
    rcases hdeg with h | h | h
    · exact absurd (Or.inr h) hguard
    · exact absurd (Or.inl h) hguard
    · simp only [overallScore, h]
      norm_num

theorem C4_degenerate_zero_witness :
    (analyze_and_score_resume "some resume text" [("A", []), ("B", [])]).overall_score = 0 :=
  C4_degenerate_zero "some resume text" [("A", []), ("B", [])] (Or.inr (Or.inr (by decide)))

/-- C7: the evaluation is a pure function of its inputs: in this shallow
embedding `analyze_and_score_resume` reads no state besides its two
arguments (the Python function touches no global except the requirement
dict and résumé string passed in), so two runs on the same pair return
the same category scores, overall score, strengths and gaps. -/
theorem C7_deterministic (resume : String) (jr : List (String × List String)) :
    analyze_and_score_resume resume jr = analyze_and_score_resume resume jr ∧
    (analyze_and_score_resume resume jr).category_scores =
      (analyze_and_score_resume resume jr).category_scores ∧
    (analyze_and_score_resume resume jr).overall_score =
      (analyze_and_score_resume resume jr).overall_score ∧
    (analyze_and_score_resume resume jr).strengths =
      (analyze_and_score_resume resume jr).strengths ∧
    (analyze_and_score_resume resume jr).gaps =
      (analyze_and_score_resume resume jr).gaps :=
  ⟨rfl, rfl, rfl, rfl, rfl⟩

/-- C8: the screening decision of line 268 is an inclusive lower bound:
the candidate is screened in exactly when the overall score is at least the
threshold, a score equal to the threshold is screened in, and a score
strictly below it is not. -/
theorem C8_inclusive_threshold (s t : ℚ) :
    (screenedIn s t = true ↔ t ≤ s) ∧
    screenedIn t t = true ∧
    (s < t → screenedIn s t = false) := by
  refine ⟨?_, ?_, ?_⟩
  · simp [screenedIn, ge_iff_le]
  · simp [screenedIn]
  · intro hlt
    simp [screenedIn, ge_iff_le]
    exact hlt

theorem C8_inclusive_threshold_witness :
    screenedIn 75 75 = true ∧ screenedIn (7499/100) 75 = false :=
  ⟨(C8_inclusive_threshold 75 75).2.1,
    (C8_inclusive_threshold (7499/100) 75).2.2 (by norm_num)⟩

/-! ### C1: the spec's linear-coverage overall score vs. the code's pooled ratio -/

/-- Modelled from the spec: `round(·, 2)` to two decimal places.  (Python
rounds half to even; this model rounds half up, which agrees with Python
except at exact half-hundredths, none of which occur below.) -/
def round2 (q : ℚ) : ℚ := ((⌊q * 100 + 1/2⌋ : ℤ) : ℚ) / 100

/-- The per-category match ratio `|matched_terms| / |terms|` (0 if empty). -/
def matchRatio (reqs : List String) (cleanedResume : String) : ℚ :=
  if 0 < reqs.length then (matchedCount reqs cleanedResume : ℚ) / (reqs.length : ℚ)
  else 0

/-- Modelled from the spec: the linear-coverage overall fit percent with
uniform category weights — `total_score = Σ (matched/total_terms) * weight`,
`max_score = Σ weight`, all weights 1, and
`fit_percent = round(100 * total_score / max_score, 2)`; that is, the
rounded weighted mean of the per-category match ratios. -/
def specLinearFitPercent (jr : List (String × List String))
    (cleanedResume : String) : ℚ :=
  if 0 < jr.length then
    round2 (100 * (jr.map (fun p => matchRatio p.2 cleanedResume)).sum / (jr.length : ℚ))
  else 0

/-- C1 counterexample: with categories `A = {x}` (fully matched) and
`B = {y, z}` (unmatched) the spec's linear-coverage mean is
`round(100 * (1 + 0) / 2, 2) = 50`, but the code's overall score is the
pooled ratio `1/3 * 100 = 100/3 ≈ 33.33…` — the two disagree, so the
overall score is not the weighted mean of the per-category ratios. -/
theorem C1_counterexample :
    (analyze_and_score_resume "x" [("A", ["x"]), ("B", ["y", "z"])]).overall_score ≠
      specLinearFitPercent [("A", ["x"]), ("B", ["y", "z"])] (clean_text "x") := by
  have hval : (analyze_and_score_resume "x"
      [("A", ["x"]), ("B", ["y", "z"])]).overall_score = 100 / 3 := by
    rw [analyze_eq (by decide) (by decide)]
    have e1 : totalMatched [("A", ["x"]), ("B", ["y", "z"])] (clean_text "x") = 1 := by
      decide
    have e2 : totalPossible [("A", ["x"]), ("B", ["y", "z"])] = 3 := by decide
    simp only [overallScore, e1, e2]
    norm_num
  have hspec : specLinearFitPercent [("A", ["x"]), ("B", ["y", "z"])]
      (clean_text "x") = 50 := by
    have m1 : matchedCount ["x"] (clean_text "x") = 1 := by decide
    have m2 : matchedCount ["y", "z"] (clean_text "x") = 0 := by decide
    simp only [specLinearFitPercent, List.map_cons, List.map_nil, List.sum_cons,
      List.sum_nil, matchRatio, m1, m2, List.length_cons, List.length_nil, round2]
    norm_num
  rw [hval, hspec]
  norm_num

/-- C1 amended: for every nonempty requirements map with at least one term
and every nonempty résumé text, the overall score equals the pooled ratio
`100 * total_matched / total_possible` — all requirement terms pooled
together, each term carrying equal weight regardless of its category — with
no rounding applied to the returned value. -/
theorem C1_overall_is_pooled_ratio (resume : String)
    (jr : List (String × List String)) (hr : resume ≠ "") (hj : jr ≠ [])
    (hpos : 0 < totalPossible jr) :
    (analyze_and_score_resume resume jr).overall_score =
      (totalMatched jr (clean_text resume) : ℚ) / (totalPossible jr : ℚ) * 100 := by
  rw [analyze_eq hr hj]
  simp only [overallScore, if_pos hpos]

theorem C1_overall_is_pooled_ratio_witness :
    (analyze_and_score_resume "x" [("A", ["x"]), ("B", ["y", "z"])]).overall_score =
      (totalMatched [("A", ["x"]), ("B", ["y", "z"])] (clean_text "x") : ℚ) /
        (totalPossible [("A", ["x"]), ("B", ["y", "z"])] : ℚ) * 100 :=
  C1_overall_is_pooled_ratio "x" [("A", ["x"]), ("B", ["y", "z"])]
    (by decide) (by decide) (by decide)

/-! ### C5: the presence test runs against the cleaned text, not the raw text -/

/-- Modelled from the spec: the presence test as the spec words it —
case-insensitive substring containment of the term inside the full document
text (both sides lowercased, nothing else changed). -/
def specSubstringPresent (term doc : String) : Bool :=
  containsSeq (term.data.map Char.toLower) (doc.data.map Char.toLower)

theorem seqAt_subset {n h : List Char} (hs : seqAt n h = true) :
    ∀ c ∈ n, c ∈ h := by
  induction n generalizing h with
  | nil => simp
  | cons a as ih =>
    cases h with
    | nil => simp [seqAt] at hs
    | cons b bs =>
      simp only [seqAt, Bool.and_eq_true, beq_iff_eq] at hs
      intro c hc
      rcases List.mem_cons.mp hc with rfl | hc
      · exact hs.1 ▸ List.mem_cons_self _ _
      · exact List.mem_cons_of_mem _ (ih hs.2 c hc)

theorem containsSeq_subset {n h : List Char} (hs : containsSeq n h = true) :
    ∀ c ∈ n, c ∈ h := by
  induction h with
  | nil =>
    simp only [containsSeq, List.isEmpty_iff] at hs
    subst hs
    simp
  | cons b bs ih =>
    simp only [containsSeq, Bool.or_eq_true] at hs
    rcases hs with hs | hs
    · exact seqAt_subset hs
    · exact fun c hc => List.mem_cons_of_mem _ (ih hs c hc)

theorem mem_collapseWs {c : Char} {l : List Char} {b : Bool}
    (hc : c ∈ collapseWs l b) : c ∈ l ∨ c = ' ' := by
  induction l generalizing b with
  | nil => simp [collapseWs] at hc
  | cons a as ih =>
    simp only [collapseWs] at hc
    by_cases ha : isPyWs a = true
    · rw [if_pos ha] at hc
      cases b with
      | true =>
        simp only [if_pos rfl] at hc
        rcases ih hc with h | h
        · exact Or.inl (List.mem_cons_of_mem _ h)
        · exact Or.inr h
      | false =>
        simp only [Bool.false_eq_true, if_neg] at hc
        rcases List.mem_cons.mp hc with rfl | hc
        · exact Or.inr rfl
        · rcases ih hc with h | h
          · exact Or.inl (List.mem_cons_of_mem _ h)
          · exact Or.inr h
    · rw [if_neg ha] at hc
      rcases List.mem_cons.mp hc with rfl | hc
      · exact Or.inl (List.mem_cons_self _ _)
      · rcases ih hc with h | h
        · exact Or.inl (List.mem_cons_of_mem _ h)
        · exact Or.inr h

theorem mem_cleanList_kept {c : Char} {l : List Char} (hc : c ∈ cleanList l) :
    keptChar c = true := by
  unfold cleanList stripWs dropTrail at hc
  have h1 : c ∈ collapseWs ((l.map Char.toLower).filter keptChar) false := by
    have h2 := List.mem_reverse.mp hc
    have h3 := (List.dropWhile_sublist _ (l := _)).mem h2
    have h4 := List.mem_reverse.mp h3
    exact (List.dropWhile_sublist _ (l := _)).mem h4
  rcases mem_collapseWs h1 with h | rfl
  · exact (List.mem_filter.mp h).2
  · rfl

/-- A requirement term containing a character that `clean_text` deletes
(here `/`) can never pass the presence test, whatever the résumé says. -/
theorem slash_term_never_matches (req : String) (hslash : '/' ∈ req.data)
    (doc : String) : termPresent req (clean_text doc) = false := by
  by_contra h
  rw [Bool.not_eq_false] at h
  have hmem : '/' ∈ (clean_text doc).data := by
    apply containsSeq_subset h
    have : Char.toLower '/' = '/' := by decide
    exact this ▸ List.mem_map_of_mem Char.toLower hslash
  have := mem_cleanList_kept hmem
  simp [keptChar, isPyWs] at this

/-- C5 counterexample: the term `SSL/TLS` occurs verbatim (hence
case-insensitively as a substring of the full document text, as the claim
demands) in the résumé `"Expert in SSL/TLS"`, yet the code leaves it
unmatched — it lands in the gaps, not the strengths — because the presence
test compares against `clean_text` of the résumé, which deletes `/`. -/
theorem C5_counterexample :
    specSubstringPresent "SSL/TLS" "Expert in SSL/TLS" = true ∧
    termPresent "SSL/TLS" (clean_text "Expert in SSL/TLS") = false ∧
    (analyze_and_score_resume "Expert in SSL/TLS"
        [("Network / Infra Security", ["SSL/TLS"])]).gaps =
      [("Network / Infra Security", ["SSL/TLS"])] ∧
    (analyze_and_score_resume "Expert in SSL/TLS"
        [("Network / Infra Security", ["SSL/TLS"])]).strengths =
      [("Network / Infra Security", [])] := by
  decide

/-- C5 amended: a term is counted as matched (appears among the strengths)
iff its lowercased form is a substring of the *cleaned* résumé text —
lowercased, characters outside `[a-z0-9\s.\-+#]` deleted, whitespace
collapsed — not of the raw document text; in particular a term containing
`/` is never matched, whatever the résumé contains. -/
theorem C5_matched_iff_in_cleaned (resume : String)
    (jr : List (String × List String)) (hr : resume ≠ "") (hj : jr ≠ [])
    (c : String) (ts : List String) (hmem : (c, ts) ∈ jr) (t : String)
    (ht : t ∈ ts) :
    ((c, ts.filter (fun r => termPresent r (clean_text resume))) ∈
        (analyze_and_score_resume resume jr).strengths) ∧
    (t ∈ ts.filter (fun r => termPresent r (clean_text resume)) ↔
      containsSeq (t.data.map Char.toLower) (cleanList resume.data) = true) ∧
    ('/' ∈ t.data → t ∉ ts.filter (fun r => termPresent r (clean_text resume))) := by
  refine ⟨?_, ?_, ?_⟩
  · rw [analyze_eq hr hj]
    exact List.mem_map.mpr ⟨(c, ts), hmem, rfl⟩
  · constructor
    · intro hx
      exact (List.mem_filter.mp hx).2
    · intro hx
      exact List.mem_filter.mpr ⟨ht, hx⟩
  · intro hslash hx
    have := (List.mem_filter.mp hx).2
    rw [slash_term_never_matches t hslash resume] at this
    cases this

theorem C5_matched_iff_in_cleaned_witness :
    (("Network / Infra Security",
        List.filter (fun r => termPresent r (clean_text "Expert in SSL/TLS"))
          ["SSL/TLS"]) ∈
      (analyze_and_score_resume "Expert in SSL/TLS"
        [("Network / Infra Security", ["SSL/TLS"])]).strengths) ∧
    ("SSL/TLS" ∈ List.filter (fun r => termPresent r (clean_text "Expert in SSL/TLS"))
        ["SSL/TLS"] ↔
      containsSeq ("SSL/TLS".data.map Char.toLower)
        (cleanList "Expert in SSL/TLS".data) = true) ∧
    ('/' ∈ "SSL/TLS".data →
      "SSL/TLS" ∉ List.filter (fun r => termPresent r (clean_text "Expert in SSL/TLS"))
        ["SSL/TLS"]) :=
  C5_matched_iff_in_cleaned "Expert in SSL/TLS"
    [("Network / Infra Security", ["SSL/TLS"])] (by decide) (by decide)
    "Network / Infra Security" ["SSL/TLS"] (by decide) "SSL/TLS" (by decide)

/-! ### C6: appending to the résumé never decreases any score -/

/-- Whether the last character processed by `collapseWs` was whitespace
(`b` if the list is empty). -/
def wsState (l : List Char) (b : Bool) : Bool :=
  l.foldl (fun _ c => isPyWs c) b

theorem collapseWs_append (xs ys : List Char) (b : Bool) :
    collapseWs (xs ++ ys) b = collapseWs xs b ++ collapseWs ys (wsState xs b) := by
  induction xs generalizing b with
  | nil => simp [collapseWs, wsState]
  | cons c rest ih =>
    have hcons : ∀ (l : List Char) (prev : Bool), collapseWs (c :: l) prev =
        if isPyWs c then (if prev then collapseWs l true else ' ' :: collapseWs l true)
        else c :: collapseWs l false := fun l prev => rfl
    have hws : wsState (c :: rest) b = wsState rest (isPyWs c) := rfl
    rw [List.cons_append, hcons, hcons, hws]
    by_cases hc : isPyWs c = true
    · rw [if_pos hc, if_pos hc, hc]
      cases b with
      | true => exact ih true
      | false =>
        rw [if_neg Bool.false_ne_true, if_neg Bool.false_ne_true, List.cons_append,
          ih true]
    · rw [if_neg hc, if_neg hc]
      rw [Bool.not_eq_true] at hc
      rw [hc, List.cons_append, ih false]

theorem dropWhile_append_pos {p : Char → Bool} {u : List Char} (v : List Char)
    (h : u.dropWhile p ≠ []) : (u ++ v).dropWhile p = u.dropWhile p ++ v := by
  induction u with
  | nil => simp [List.dropWhile] at h
  | cons a as ih =>
    by_cases ha : p a = true
    · rw [List.dropWhile_cons_of_pos ha] at h
      rw [List.cons_append, List.dropWhile_cons_of_pos ha,
        List.dropWhile_cons_of_pos ha]
      exact ih h
    · rw [List.cons_append, List.dropWhile_cons_of_neg ha,
        List.dropWhile_cons_of_neg ha, List.cons_append]

theorem dropWhile_append_nil {p : Char → Bool} {u : List Char} (v : List Char)
    (h : u.dropWhile p = []) : (u ++ v).dropWhile p = v.dropWhile p := by
  induction u with
  | nil => simp
  | cons a as ih =>
    by_cases ha : p a = true
    · rw [List.dropWhile_cons_of_pos ha] at h
      rw [List.cons_append, List.dropWhile_cons_of_pos ha]
      exact ih h
    · rw [List.dropWhile_cons_of_neg ha] at h
      cases h

theorem dropTrail_append_exists (u v : List Char) :
    ∃ r, dropTrail (u ++ v) = dropTrail u ++ r := by
  by_cases hv : v.reverse.dropWhile isPyWs = []
  · refine ⟨[], ?_⟩
    unfold dropTrail
    rw [List.reverse_append, dropWhile_append_nil u.reverse hv, List.append_nil]
  · refine ⟨(u.reverse.takeWhile isPyWs).reverse ++
      (v.reverse.dropWhile isPyWs).reverse, ?_⟩
    have hu : u = (u.reverse.dropWhile isPyWs).reverse ++
        (u.reverse.takeWhile isPyWs).reverse := by
      conv_lhs => rw [← List.reverse_reverse u,
        ← List.takeWhile_append_dropWhile (p := isPyWs) (l := u.reverse)]
      rw [List.reverse_append]
    unfold dropTrail
    rw [List.reverse_append, dropWhile_append_pos u.reverse hv,
      List.reverse_append, List.reverse_reverse]
    conv_lhs => rw [hu]
    rw [List.append_assoc]

theorem stripWs_append_exists (u v : List Char) :
    ∃ r, stripWs (u ++ v) = stripWs u ++ r := by
  unfold stripWs
  by_cases h : u.dropWhile isPyWs = []
  · refine ⟨dropTrail ((u ++ v).dropWhile isPyWs), ?_⟩
    rw [h]
    rfl
  · obtain ⟨r, hr⟩ := dropTrail_append_exists (u.dropWhile isPyWs) v
    exact ⟨r, by rw [dropWhile_append_pos v h, hr]⟩

theorem cleanList_append_exists (s t : List Char) :
    ∃ r, cleanList (s ++ t) = cleanList s ++ r := by
  unfold cleanList
  rw [List.map_append, List.filter_append, collapseWs_append]
  exact stripWs_append_exists _ _

theorem seqAt_append {n u : List Char} (r : List Char) (h : seqAt n u = true) :
    seqAt n (u ++ r) = true := by
  induction n generalizing u with
  | nil => simp [seqAt]
  | cons a as ih =>
    cases u with
    | nil => simp [seqAt] at h
    | cons b bs =>
      simp only [List.cons_append, seqAt, Bool.and_eq_true] at h ⊢
      exact ⟨h.1, ih h.2⟩

theorem containsSeq_nil_needle (h : List Char) : containsSeq [] h = true := by
  cases h <;> simp [containsSeq, seqAt]

theorem containsSeq_append {n u : List Char} (r : List Char)
    (h : containsSeq n u = true) : containsSeq n (u ++ r) = true := by
  induction u with
  | nil =>
    simp only [containsSeq, List.isEmpty_iff] at h
    subst h
    simpa using containsSeq_nil_needle r
  | cons b bs ih =>
    simp only [containsSeq, Bool.or_eq_true, List.cons_append] at h ⊢
    rcases h with h | h
    · exact Or.inl (seqAt_append r h)
    · exact Or.inr (ih h)

theorem string_data_append (s t : String) : (s ++ t).data = s.data ++ t.data := by
  cases s
  cases t
  rfl

theorem termPresent_mono (req s t : String)
    (h : termPresent req (clean_text s) = true) :
    termPresent req (clean_text (s ++ t)) = true := by
  show containsSeq (req.data.map Char.toLower) (cleanList (s ++ t).data) = true
  rw [string_data_append]
  obtain ⟨r, hr⟩ := cleanList_append_exists s.data t.data
  rw [hr]
  exact containsSeq_append r h

theorem matchedCount_mono (reqs : List String) (s t : String) :
    matchedCount reqs (clean_text s) ≤ matchedCount reqs (clean_text (s ++ t)) := by
  unfold matchedCount
  induction reqs with
  | nil => exact Nat.le_refl _
  | cons a as ih =>
    simp only [List.countP_cons]
    by_cases hp : termPresent a (clean_text s) = true
    · rw [hp, termPresent_mono a s t hp]
      omega
    · rw [Bool.not_eq_true] at hp
      simp only [hp, Bool.false_eq_true, if_false]
      have hb : (if termPresent a (clean_text (s ++ t)) = true then 1 else 0) ≤ 1 := by
        split <;> omega
      omega

theorem categoryScore_mono (ts : List String) (s t : String) :
    categoryScore ts (clean_text s) ≤ categoryScore ts (clean_text (s ++ t)) := by
  unfold categoryScore
  by_cases hpos : 0 < ts.length
  · rw [if_pos hpos, if_pos hpos]
    have hm : (matchedCount ts (clean_text s) : ℚ) ≤
        (matchedCount ts (clean_text (s ++ t)) : ℚ) := by
      exact_mod_cast matchedCount_mono ts s t
    have hL : (0 : ℚ) < (ts.length : ℚ) := by exact_mod_cast hpos
    exact mul_le_mul_of_nonneg_right ((div_le_div_iff_of_pos_right hL).mpr hm) (by norm_num)
  · rw [if_neg hpos, if_neg hpos]

theorem overallScore_mono (jr : List (String × List String)) (s t : String) :
    overallScore jr (clean_text s) ≤ overallScore jr (clean_text (s ++ t)) := by
  unfold overallScore
  by_cases hpos : 0 < totalPossible jr
  · rw [if_pos hpos, if_pos hpos]
    have hm0 : totalMatched jr (clean_text s) ≤
        totalMatched jr (clean_text (s ++ t)) := by
      unfold totalMatched
      exact List.sum_le_sum
        (fun (p : String × List String) _ => matchedCount_mono p.2 s t)
    have hm : (totalMatched jr (clean_text s) : ℚ) ≤
        (totalMatched jr (clean_text (s ++ t)) : ℚ) := by exact_mod_cast hm0
    have hL : (0 : ℚ) < (totalPossible jr : ℚ) := by exact_mod_cast hpos
    exact mul_le_mul_of_nonneg_right ((div_le_div_iff_of_pos_right hL).mpr hm) (by norm_num)
  · rw [if_neg hpos, if_neg hpos]

theorem append_ne_empty {s : String} (t : String) (hs : s ≠ "") : s ++ t ≠ "" := by
  intro h
  apply hs
  have hd := congrArg String.data h
  rw [string_data_append] at hd
  have hs' : s.data = [] := (List.append_eq_nil.mp hd).1
  cases s with
  | mk d =>
    cases hs'
    rfl

/-- C6: appending any string to the résumé text can only keep or increase
scores: each category's score on the extended résumé is at least its score
on the original, and the overall score of `analyze_and_score_resume` on the
extended résumé is at least the overall score on the original. -/
theorem C6_monotone_append (jr : List (String × List String))
    (resume extra : String) :
    (analyze_and_score_resume resume jr).overall_score ≤
      (analyze_and_score_resume (resume ++ extra) jr).overall_score ∧
    ∀ c ts, (c, ts) ∈ jr →
      categoryScore ts (clean_text resume) ≤
        categoryScore ts (clean_text (resume ++ extra)) := by
  constructor
  · by_cases hj : jr = []
    · subst hj
      unfold analyze_and_score_resume
      rw [if_pos (Or.inr rfl), if_pos (Or.inr rfl)]
    · by_cases hr : resume = ""
      · subst hr
        unfold analyze_and_score_resume
        rw [if_pos (Or.inl rfl)]
        split
        · exact le_refl 0
        · exact overallScore_nonneg _ _
      · have hr2 := append_ne_empty extra hr
        rw [analyze_eq hr hj, analyze_eq hr2 hj]
        exact overallScore_mono jr resume extra
  · intro c ts _
    exact categoryScore_mono ts resume extra

theorem C6_monotone_append_witness :
    (analyze_and_score_resume "py" [("A", ["python"]), ("B", ["z"])]).overall_score ≤
      (analyze_and_score_resume ("py" ++ "thon")
        [("A", ["python"]), ("B", ["z"])]).overall_score ∧
    categoryScore ["python"] (clean_text "py") ≤
      categoryScore ["python"] (clean_text ("py" ++ "thon")) :=
  ⟨(C6_monotone_append [("A", ["python"]), ("B", ["z"])] "py" "thon").1,
    (C6_monotone_append [("A", ["python"]), ("B", ["z"])] "py" "thon").2
      "A" ["python"] (by decide)⟩

/-! ### C9: extracted categories are never empty -/

/-- C9: every category present in the map returned by
`extract_and_categorize_requirements` has at least one requirement term
(line 145 removes the empty ones), and consequently the zero-terms guard of
line 185 is unreachable on such maps: the category score is always computed
by the ratio formula, never by the `else 0` branch. -/
theorem C9_no_empty_categories (extra : String → List String) (jd : String)
    (p : String × List String)
    (hp : p ∈ extract_and_categorize_requirements extra jd) (doc : String) :
    p.2 ≠ [] ∧
    categoryScore p.2 doc =
      ((matchedCount p.2 doc : ℚ) / (p.2.length : ℚ)) * 100 := by
  have hne : p.2 ≠ [] := by
    unfold extract_and_categorize_requirements at hp
    split at hp
    · cases hp
    · have h2 := (List.mem_filter.mp hp).2
      intro hnil
      rw [hnil] at h2
      simp at h2
  refine ⟨hne, ?_⟩
  unfold categoryScore
  rw [if_pos (List.length_pos.mpr hne)]

theorem C9_no_empty_categories_witness :
    (("Programming / Scripting", ["Python"]) : String × List String).2 ≠ [] ∧
    categoryScore (("Programming / Scripting", ["Python"]) :
        String × List String).2 (clean_text "python") =
      ((matchedCount (("Programming / Scripting", ["Python"]) :
          String × List String).2 (clean_text "python") : ℚ) /
        ((("Programming / Scripting", ["Python"]) :
          String × List String).2.length : ℚ)) * 100 :=
  C9_no_empty_categories (fun _ => []) "splunk and python"
    ("Programming / Scripting", ["Python"]) (by decide) (clean_text "python")

/-! ### C10: the implied-experience requirement is unsatisfiable -/

/-- A requirement term containing a character whose lowercase form
`clean_text` deletes can never pass the presence test. -/
theorem unkept_term_never_matches {c : Char} (req : String) (hc : c ∈ req.data)
    (hkept : keptChar c.toLower = false) (doc : String) :
    termPresent req (clean_text doc) = false := by
  by_contra h
  rw [Bool.not_eq_false] at h
  have hmem : c.toLower ∈ (clean_text doc).data :=
    containsSeq_subset h _ (List.mem_map_of_mem Char.toLower hc)
  have := mem_cleanList_kept hmem
  rw [this] at hkept
  cases hkept

/-- If some category of the map has an unmatched term, the pooled overall
score is strictly below 100. -/
theorem overallScore_lt_100 {jr : List (String × List String)} {cleaned : String}
    {c : String} {ts : List String} (hmem : (c, ts) ∈ jr)
    (hlt : matchedCount ts cleaned < ts.length) :
    overallScore jr cleaned < 100 := by
  obtain ⟨l1, l2, rfl⟩ := List.append_of_mem hmem
  have h1 : (l1.map (fun p => matchedCount p.2 cleaned)).sum ≤
      (l1.map (fun p => p.2.length)).sum :=
    List.sum_le_sum (fun p _ => matchedCount_le_length p.2 cleaned)
  have h2 : (l2.map (fun p => matchedCount p.2 cleaned)).sum ≤
      (l2.map (fun p => p.2.length)).sum :=
    List.sum_le_sum (fun p _ => matchedCount_le_length p.2 cleaned)
  have hTMTP : totalMatched (l1 ++ (c, ts) :: l2) cleaned <
      totalPossible (l1 ++ (c, ts) :: l2) := by
    unfold totalMatched totalPossible
    simp only [List.map_append, List.sum_append, List.map_cons, List.sum_cons]
    omega
  have hTP : 0 < totalPossible (l1 ++ (c, ts) :: l2) := by omega
  unfold overallScore
  rw [if_pos hTP]
  have hQ : (totalMatched (l1 ++ (c, ts) :: l2) cleaned : ℚ) /
      (totalPossible (l1 ++ (c, ts) :: l2) : ℚ) < 1 := by
    rw [div_lt_one (by exact_mod_cast hTP)]
    exact_mod_cast hTMTP
  have hmul := mul_lt_mul_of_pos_right hQ (show (0 : ℚ) < 100 by norm_num)
  rw [one_mul] at hmul
  exact hmul

/-- C10: when the cleaned JD mentions `senior` or `lead`, the regex finds no
explicit `<n> years experience` phrase, and no years-of-experience keyword
(nor any chunk/entity contribution) lands in that category, the extractor
synthesizes the requirement `5+ years experience (implied)`.  That term can
never match any résumé — its parentheses are deleted from every cleaned
résumé — so it always sits in the gaps of `Years of Experience`, and the
overall score stays strictly below 100. -/
theorem C10_implied_experience_caps_score (extra : String → List String)
    (jd : String) (hextra : extra "Years of Experience" = [])
    (hyears : findYears (clean_text jd).data = [])
    (hsenior : (containsSeq "senior".data (clean_text jd).data ||
      containsSeq "lead".data (clean_text jd).data) = true)
    (hkw : ∀ k ∈ ["years experience", "year experience", "yrs experience",
      "yrs exp", "year+"],
      containsSeq (k.data.map Char.toLower) (clean_text jd).data = false) :
    ("Years of Experience", ["5+ years experience (implied)"]) ∈
      extract_and_categorize_requirements extra jd ∧
    (∀ resume, termPresent "5+ years experience (implied)"
      (clean_text resume) = false) ∧
    (∀ resume, resume ≠ "" →
      ("Years of Experience", ["5+ years experience (implied)"]) ∈
        (analyze_and_score_resume resume
          (extract_and_categorize_requirements extra jd)).gaps) ∧
    (∀ resume, (analyze_and_score_resume resume
        (extract_and_categorize_requirements extra jd)).overall_score < 100) := by
  have hterm : ∀ resume : String, termPresent "5+ years experience (implied)"
      (clean_text resume) = false := by
    intro resume
    exact unkept_term_never_matches (c := '(') _ (by decide) (by decide) resume
  have hjd : jd ≠ "" := by
    intro h
    subst h
    have hz : (containsSeq "senior".data (clean_text "").data ||
        containsSeq "lead".data (clean_text "").data) = false := by decide
    rw [hz] at hsenior
    cases hsenior
  have hbase : ("Years of Experience", ([] : List String)) ∈
      extractBase extra (clean_text jd) := by
    unfold extractBase
    have hf : foundTerms
        ["years experience", "year experience", "yrs experience", "yrs exp",
          "year+"] (extra "Years of Experience") (clean_text jd) = [] := by
      unfold foundTerms
      rw [hextra]
      have hfil : (["years experience", "year experience", "yrs experience",
          "yrs exp", "year+"].filter
          (fun k => containsSeq (k.data.map Char.toLower)
            (clean_text jd).data)) = [] := by
        rw [List.filter_eq_nil_iff]
        intro a ha
        rw [hkw a ha]
        simp
      rw [hfil]
      rfl
    refine List.mem_map.mpr
      ⟨("Years of Experience",
        ["years experience", "year experience", "yrs experience", "yrs exp",
          "year+"]), by simp [categoriesList], ?_⟩
    rw [hf]
  have hwith : ("Years of Experience", ["5+ years experience (implied)"]) ∈
      extractWithExp extra (clean_text jd) := by
    unfold extractWithExp
    rw [if_neg (not_ne_iff.mpr hyears), if_pos hsenior]
    refine List.mem_map.mpr ⟨("Years of Experience", []), hbase, ?_⟩
    simp
  have ha : ("Years of Experience", ["5+ years experience (implied)"]) ∈
      extract_and_categorize_requirements extra jd := by
    unfold extract_and_categorize_requirements
    rw [if_neg hjd]
    exact List.mem_filter.mpr ⟨hwith, by decide⟩
  refine ⟨ha, hterm, ?_, ?_⟩
  · intro resume hres
    have hjr : extract_and_categorize_requirements extra jd ≠ [] := by
      intro hnil
      rw [hnil] at ha
      cases ha
    rw [analyze_eq hres hjr]
    refine List.mem_map.mpr
      ⟨("Years of Experience", ["5+ years experience (implied)"]), ha, ?_⟩
    have hfil : ["5+ years experience (implied)"].filter
        (fun r => !termPresent r (clean_text resume)) =
        ["5+ years experience (implied)"] := by
      simp [List.filter_cons, hterm resume]
    rw [hfil]
  · intro resume
    unfold analyze_and_score_resume
    split
    · norm_num
    · have hcnt : matchedCount ["5+ years experience (implied)"]
          (clean_text resume) < (["5+ years experience (implied)"]).length := by
        unfold matchedCount
        simp [List.countP_cons, hterm resume]
      exact overallScore_lt_100 ha hcnt

theorem C10_implied_experience_caps_score_witness :
    ("Years of Experience", ["5+ years experience (implied)"]) ∈
      extract_and_categorize_requirements (fun _ => []) "senior security engineer" ∧
    termPresent "5+ years experience (implied)" (clean_text "python") = false ∧
    ("Years of Experience", ["5+ years experience (implied)"]) ∈
      (analyze_and_score_resume "python"
        (extract_and_categorize_requirements (fun _ => [])
          "senior security engineer")).gaps ∧
    (analyze_and_score_resume "python"
      (extract_and_categorize_requirements (fun _ => [])
        "senior security engineer")).overall_score < 100 := by
  have h := C10_implied_experience_caps_score (fun _ => [])
    "senior security engineer" rfl (by decide) (by decide) (by decide)
  exact ⟨h.1, h.2.1 "python", h.2.2.1 "python" (by decide), h.2.2.2 "python"⟩
